import Mathlib

/-!
Verification of the GEO244 InSAR covariance-estimation pipeline.

Shallow embedding of the numerical pipeline in
`src/10_error_analysis/insar_correlated_noise_covariance.ipynb` and
`src/10_error_analysis/make_inverse_covariance_matrix.ipynb`:

* plane detrending of a raster field with missing pixels
  (`planeparams`, `flatcropifg`),
* Fourier-domain autocovariance estimation (`autocorr_grid`),
* flatten/truncate and radial binning of the covariance profile (`cvdav`),
* penalty functions for the covariance model fits
  (`pendiffexp`, `pendiffexpcos`),
* pairwise covariance matrix construction (`rgrid`, `Ecov`).

Floating-point values are embedded as exact rationals (plane fit, counts)
or reals (square roots, transcendental functions, Fourier transforms);
a NaN pixel is embedded as `none`.
-/

namespace GEO244

/-- A raster field: a 2D grid of rational samples in which `none` embeds a
NaN (missing) pixel, indexed by (row, column). -/
abbrev Grid (m n : ℕ) := Fin m → Fin n → Option ℚ

/-- The set of valid (non-NaN) pixels of a field, as (row, column) pairs.
Embeds the `~np.isnan` filtering that builds `xx1d`, `yy1d`, `cropifg1d`. -/
def validSet {m n : ℕ} (f : Grid m n) : Finset (Fin m × Fin n) :=
  Finset.univ.filter (fun p => (f p.1 p.2).isSome)

/-- Number of valid pixels of a field. -/
def validCount {m n : ℕ} (f : Grid m n) : ℕ := (validSet f).card

/-- The value of a pixel, with `0` as a (never used) default on NaN pixels. -/
def pixval {m n : ℕ} (f : Grid m n) (p : Fin m × Fin n) : ℚ :=
  (f p.1 p.2).getD 0

/-- One row of the design matrix `A = np.vstack((np.ones_like(xx1d),xx1d,yy1d)).T`:
the row for a valid pixel `p` is `[1, column-index, row-index]`. -/
def designRow {m n : ℕ} (p : Fin m × Fin n) : Fin 3 → ℚ :=
  ![1, (p.2.val : ℚ), (p.1.val : ℚ)]

/-- The normal matrix `ATA = np.matmul(A.T,A)`.  Entrywise
`(Aᵀ A) a b = ∑ valid pixels p, (designRow p a) * (designRow p b)`, i.e. the
sum over valid pixels of the outer product of the design row with itself. -/
def ATA {m n : ℕ} (f : Grid m n) : Matrix (Fin 3) (Fin 3) ℚ :=
  ∑ p ∈ validSet f, Matrix.vecMulVec (designRow p) (designRow p)

/-- The right-hand side `ATd = np.matmul(A.T,cropifg1d.T)`:
`(Aᵀ d) a = ∑ valid pixels p, (designRow p a) * value p`. -/
def ATd {m n : ℕ} (f : Grid m n) : Fin 3 → ℚ :=
  ∑ p ∈ validSet f, pixval f p • designRow p

/-- Determinant of a 3×3 matrix by cofactor expansion (the value computed
implicitly by `np.linalg.inv` when deciding singularity of `ATA`). -/
def det3 (A : Matrix (Fin 3) (Fin 3) ℚ) : ℚ :=
  A 0 0 * (A 1 1 * A 2 2 - A 1 2 * A 2 1)
    - A 0 1 * (A 1 0 * A 2 2 - A 1 2 * A 2 0)
    + A 0 2 * (A 1 0 * A 2 1 - A 1 1 * A 2 0)

/-- Adjugate (transposed cofactor matrix) of a 3×3 matrix. -/
def adj3 (A : Matrix (Fin 3) (Fin 3) ℚ) : Matrix (Fin 3) (Fin 3) ℚ :=
  !![A 1 1 * A 2 2 - A 1 2 * A 2 1, A 0 2 * A 2 1 - A 0 1 * A 2 2,
       A 0 1 * A 1 2 - A 0 2 * A 1 1;
     A 1 2 * A 2 0 - A 1 0 * A 2 2, A 0 0 * A 2 2 - A 0 2 * A 2 0,
       A 0 2 * A 1 0 - A 0 0 * A 1 2;
     A 1 0 * A 2 1 - A 1 1 * A 2 0, A 0 1 * A 2 0 - A 0 0 * A 2 1,
       A 0 0 * A 1 1 - A 0 1 * A 1 0]

/-- Exact 3×3 matrix inverse, `inv3 A = (det3 A)⁻¹ • adj3 A`; this is the
matrix `np.linalg.inv(ATA)` returns on a nonsingular input. -/
def inv3 (A : Matrix (Fin 3) (Fin 3) ℚ) : Matrix (Fin 3) (Fin 3) ℚ :=
  (det3 A)⁻¹ • adj3 A

/-- The plane coefficients
`planeparams=np.matmul(np.linalg.inv(ATA),ATd.T)`: `none` embeds the
`LinAlgError` that `np.linalg.inv` raises on a singular normal matrix. -/
def planeparams {m n : ℕ} (f : Grid m n) : Option (Fin 3 → ℚ) :=
  if det3 (ATA f) = 0 then none else some ((inv3 (ATA f)).mulVec (ATd f))

/-- The evaluated plane `plane = planeparams[0]+xx*planeparams[1]+yy*planeparams[2]`.
The meshgrids `xx`, `yy` were NaN-ed at the invalid pixels of the field, so the
plane value is NaN (`none`) exactly at the invalid pixels. -/
def planeGrid {m n : ℕ} (f : Grid m n) (coeffs : Fin 3 → ℚ) : Grid m n :=
  fun r c => (f r c).map
    (fun _ => coeffs 0 + (c.val : ℚ) * coeffs 1 + (r.val : ℚ) * coeffs 2)

/-- IEEE-style subtraction on possibly-NaN values: NaN propagates. -/
def optSub : Option ℚ → Option ℚ → Option ℚ
  | some a, some b => some (a - b)
  | _, _ => none

/-- The detrended field `flatcropifg = cropifg - plane`. -/
def flatcropifg {m n : ℕ} (f : Grid m n) (coeffs : Fin 3 → ℚ) : Grid m n :=
  fun r c => optSub (f r c) (planeGrid f coeffs r c)

lemma det3_zero : det3 0 = 0 := by
  simp [det3]

lemma det3_vecMulVec (u v : Fin 3 → ℚ) : det3 (Matrix.vecMulVec u v) = 0 := by
  simp only [det3, Matrix.vecMulVec_apply]
  ring

lemma det3_add_vecMulVec (u v s t : Fin 3 → ℚ) :
    det3 (Matrix.vecMulVec u v + Matrix.vecMulVec s t) = 0 := by
  simp only [det3, Matrix.add_apply, Matrix.vecMulVec_apply]
  ring

/-- With fewer than 3 valid pixels the normal matrix is a sum of at most two
rank-one outer products and is singular. -/
lemma det3_ATA_eq_zero_of_lt3 {m n : ℕ} (f : Grid m n)
    (h : validCount f < 3) : det3 (ATA f) = 0 := by
  unfold validCount at h
  interval_cases hc : (validSet f).card
  · rw [Finset.card_eq_zero] at hc
    rw [ATA, hc, Finset.sum_empty, det3_zero]
  · rw [Finset.card_eq_one] at hc
    obtain ⟨a, ha⟩ := hc
    rw [ATA, ha, Finset.sum_singleton, det3_vecMulVec]
  · rw [Finset.card_eq_two] at hc
    obtain ⟨a, b, hab, hs⟩ := hc
    rw [ATA, hs, Finset.sum_pair hab, det3_add_vecMulVec]

/-- Multiplying a 3×3 matrix by its adjugate gives the determinant times the
identity (a polynomial identity, checked entrywise). -/
lemma mul_adj3 (A : Matrix (Fin 3) (Fin 3) ℚ) : A * adj3 A = det3 A • 1 := by
  ext i j
  fin_cases i <;> fin_cases j <;>
    simp [adj3, det3, Matrix.mul_apply, Fin.sum_univ_three, Matrix.one_apply,
      Matrix.smul_apply, smul_eq_mul] <;> ring

/-- The explicit 3×3 inverse is a right inverse when the determinant is
nonzero. -/
lemma mul_inv3 (A : Matrix (Fin 3) (Fin 3) ℚ) (h : det3 A ≠ 0) :
    A * inv3 A = 1 := by
  rw [inv3, Matrix.mul_smul, mul_adj3, smul_smul, inv_mul_cancel₀ h, one_smul]

/-- C2: whenever the plane fit returns coefficients, the field had at least 3
valid pixels, the coefficients solve the normal equations `(Aᵀ A) m = Aᵀ d`
built over the valid pixels with design rows `[1, column-index, row-index]`,
and the returned field is the input minus the plane
`offset + x-slope*column + y-slope*row` evaluated per pixel (NaN pixels stay
NaN on both sides). -/
theorem claim_C2 {m n : ℕ} (f : Grid m n) (coeffs : Fin 3 → ℚ)
    (h : planeparams f = some coeffs) :
    3 ≤ validCount f ∧
    (ATA f).mulVec coeffs = ATd f ∧
    ∀ r c, flatcropifg f coeffs r c =
      (f r c).map
        (fun v => v - (coeffs 0 + coeffs 1 * (c.val : ℚ) + coeffs 2 * (r.val : ℚ))) := by
  have hdet : det3 (ATA f) ≠ 0 := by
    intro hd
    rw [planeparams, if_pos hd] at h
    exact Option.noConfusion h
  have hco : (inv3 (ATA f)).mulVec (ATd f) = coeffs := by
    rw [planeparams, if_neg hdet] at h
    exact Option.some_inj.mp h
  refine ⟨?_, ?_, ?_⟩
  · by_contra hlt
    exact hdet (det3_ATA_eq_zero_of_lt3 f (by omega))
  · rw [← hco, Matrix.mulVec_mulVec, mul_inv3 (ATA f) hdet, Matrix.one_mulVec]
  · intro r c
    cases hfc : f r c with
    | none => simp [flatcropifg, planeGrid, optSub, hfc]
    | some v =>
      simp only [flatcropifg, planeGrid, hfc, Option.map_some', optSub]
      congr 1
      ring

/-- Concrete 2×2 field with 3 valid pixels used as the C2 witness input. -/
def fieldC2 : Grid 2 2 := fun r c => ![![some 2, some 3], ![some 5, none]] r c

/-- On the concrete witness field the plane fit returns the exact
coefficients (offset 2, x-slope 1, y-slope 3). -/
lemma planeparams_fieldC2 : planeparams fieldC2 = some ![2, 1, 3] := by
  have hATA : ATA fieldC2 = !![3, 1, 1; 1, 1, 0; 1, 0, 1] := by
    ext i j
    rw [ATA, validSet, Finset.sum_filter, Matrix.sum_apply]
    simp only [Fintype.sum_prod_type, Fin.sum_univ_two, fieldC2,
      Matrix.cons_val_zero, Matrix.cons_val_one, Matrix.head_cons,
      Option.isSome_some, Option.isSome_none, if_true, if_false,
      Matrix.vecMulVec_apply, designRow]
    fin_cases i <;> fin_cases j <;> norm_num
  have hATd : ATd fieldC2 = ![10, 3, 5] := by
    funext i
    rw [ATd, validSet, Finset.sum_filter, Finset.sum_apply]
    simp only [Fintype.sum_prod_type, Fin.sum_univ_two, fieldC2,
      Matrix.cons_val_zero, Matrix.cons_val_one, Matrix.head_cons,
      Option.isSome_some, Option.isSome_none, if_true, if_false,
      Pi.smul_apply, pixval, designRow, Option.getD_some, smul_eq_mul]
    fin_cases i <;> norm_num
  rw [planeparams, hATA, hATd]
  rw [if_neg (by norm_num [det3, Matrix.vecHead, Matrix.vecTail, Function.comp,
    Matrix.cons_val_zero, Matrix.cons_val_one, Matrix.head_cons])]
  congr 1
  funext i
  fin_cases i <;>
    simp [inv3, det3, adj3, Matrix.mulVec, Matrix.dotProduct, Fin.sum_univ_three,
      Matrix.smul_apply, smul_eq_mul, Matrix.vecHead, Matrix.vecTail,
      Function.comp] <;> norm_num

/-- C2 witness: on a concrete 2×2 field with 3 valid pixels the fit returns
coefficients (2, 1, 3), and the theorem applies. -/
theorem claim_C2_witness :
    planeparams fieldC2 = some ![2, 1, 3] ∧
    (3 ≤ validCount fieldC2 ∧
     (ATA fieldC2).mulVec ![2, 1, 3] = ATd fieldC2 ∧
     ∀ r c, flatcropifg fieldC2 ![2, 1, 3] r c =
       (fieldC2 r c).map
         (fun v => v - (![(2:ℚ), 1, 3] 0 + ![(2:ℚ), 1, 3] 1 * (c.val : ℚ) +
            ![(2:ℚ), 1, 3] 2 * (r.val : ℚ)))) :=
  ⟨planeparams_fieldC2, claim_C2 fieldC2 ![2, 1, 3] planeparams_fieldC2⟩

/-- C9: with fewer than 3 valid pixels the plane fit fails (the normal matrix
is singular and `np.linalg.inv` raises) rather than returning a result. -/
theorem claim_C9 {m n : ℕ} (f : Grid m n) (h : validCount f < 3) :
    planeparams f = none := by
  rw [planeparams, if_pos (det3_ATA_eq_zero_of_lt3 f h)]

/-- Concrete 1×2 field with 2 valid pixels used as the C9 witness input. -/
def fieldC9 : Grid 1 2 := fun r c => ![![some 1, some 1]] r c

/-- C9 witness: a concrete field with 2 valid pixels makes the fit fail. -/
theorem claim_C9_witness :
    validCount fieldC9 < 3 ∧ planeparams fieldC9 = none :=
  ⟨by decide, claim_C9 fieldC9 (by decide)⟩

/-! ## Fourier-domain autocovariance estimation -/

/-- Zero-fill of a possibly-NaN value, as in
`flatcropifgzeros[np.isnan(flatcropifg)]=0`. -/
def zerofill (v : Option ℚ) : ℚ := v.getD 0

/-- The zero-filled detrended field consumed by `fft2`. -/
def flatcropifgzeros {m n : ℕ} (f : Grid m n) : Fin m → Fin n → ℚ :=
  fun r c => zerofill (f r c)

/-- State model of the two source lines
`flatcropifgzeros=flatcropifg` and `flatcropifgzeros[np.isnan(flatcropifg)]=0`
under numpy semantics: the first line binds the new name to the same array
object (an alias, not a copy), and the second line assigns into that array in
place.  The returned pair holds the values of the names
(`flatcropifg`, `flatcropifgzeros`) after both lines run: both denote the
zero-filled array. -/
def zerofillAssign {m n : ℕ} (d : Grid m n) : Grid m n × Grid m n :=
  (fun r c => some (zerofill (d r c)), fun r c => some (zerofill (d r c)))

/-- The count `np.count_nonzero(flatcropifgzeros)`: the number of entries of
the zero-filled field that are nonzero. -/
def countNonzero {m n : ℕ} (z : Fin m → Fin n → ℚ) : ℕ :=
  (Finset.univ.filter (fun p : Fin m × Fin n => z p.1 p.2 ≠ 0)).card

/-- The 2D discrete Fourier transform computed by `scipy.fft.fft2`:
`X[k,l] = ∑ j i, x[j,i] · exp(-2πi·(jk/m + il/n))`. -/
noncomputable def fft2 {m n : ℕ} (x : Fin m → Fin n → ℂ) (k : Fin m) (l : Fin n) : ℂ :=
  ∑ j : Fin m, ∑ i : Fin n,
    x j i * Complex.exp (-2 * (Real.pi : ℂ) * Complex.I *
      (((j.val * k.val : ℕ) : ℂ) / (m : ℂ) + ((i.val * l.val : ℕ) : ℂ) / (n : ℂ)))

/-- The 2D inverse discrete Fourier transform computed by `scipy.fft.ifft2`:
`x[k,l] = (1/(mn)) ∑ j i, X[j,i] · exp(+2πi·(jk/m + il/n))`. -/
noncomputable def ifft2 {m n : ℕ} (x : Fin m → Fin n → ℂ) (k : Fin m) (l : Fin n) : ℂ :=
  (1 / ((m : ℂ) * (n : ℂ))) * ∑ j : Fin m, ∑ i : Fin n,
    x j i * Complex.exp (2 * (Real.pi : ℂ) * Complex.I *
      (((j.val * k.val : ℕ) : ℂ) / (m : ℂ) + ((i.val * l.val : ℕ) : ℂ) / (n : ℂ)))

/-- The power spectrum `pspec = np.real(fft_flatgrid)**2 + np.imag(fft_flatgrid)**2`. -/
noncomputable def pspec {m n : ℕ} (F : Fin m → Fin n → ℂ) (k : Fin m) (l : Fin n) : ℝ :=
  (F k l).re ^ 2 + (F k l).im ^ 2

/-- The circular shift `scipy.fftpack.fftshift`: along each axis of length `s`
the entry at index `i` of the result is the entry at index `(i - s/2) mod s`
of the input (numpy `roll` by `s/2`), which moves index 0 to the central
index `s/2`. -/
def fftshift {m n : ℕ} (g : Fin m → Fin n → ℝ) (r : Fin m) (c : Fin n) : ℝ :=
  g ⟨(r.val + (m - m / 2)) % m, Nat.mod_lt _ (Nat.lt_of_le_of_lt (Nat.zero_le _) r.isLt)⟩
    ⟨(c.val + (n - n / 2)) % n, Nat.mod_lt _ (Nat.lt_of_le_of_lt (Nat.zero_le _) c.isLt)⟩

/-- The autocovariance estimator of the source cell:
`autocorr_grid = fftshift(np.real(ifft2(pspec)))/np.count_nonzero(flatcropifgzeros)`.
When the nonzero count is zero the numpy division produces an all-NaN array
(0/0); `none` embeds that outcome. -/
noncomputable def autocorr_grid {m n : ℕ} (f : Grid m n) : Option (Fin m → Fin n → ℝ) :=
  if countNonzero (flatcropifgzeros f) = 0 then none
  else some (fun r c =>
    fftshift (fun a b =>
      (ifft2 (fun k l =>
        ((pspec (fft2 (fun r' c' => ((flatcropifgzeros f r' c' : ℚ) : ℂ))) k l : ℝ) : ℂ)) a b).re) r c
      / (countNonzero (flatcropifgzeros f) : ℝ))

/-- The estimator as claim C1 words it: identical Fourier pipeline, but with
every entry divided by the count of originally-valid (non-NaN) pixels of the
input field. -/
noncomputable def autocorrClaimed {m n : ℕ} (f : Grid m n) : Option (Fin m → Fin n → ℝ) :=
  if validCount f = 0 then none
  else some (fun r c =>
    fftshift (fun a b =>
      (ifft2 (fun k l =>
        ((pspec (fft2 (fun r' c' => ((flatcropifgzeros f r' c' : ℚ) : ℂ))) k l : ℝ) : ℂ)) a b).re) r c
      / (validCount f : ℝ))

/-- The power spectrum entry is the squared magnitude of the transform. -/
lemma pspec_eq_sq_abs {m n : ℕ} (F : Fin m → Fin n → ℂ) (k : Fin m) (l : Fin n) :
    pspec F k l = Complex.abs (F k l) ^ 2 := by
  rw [pspec, Complex.sq_abs, Complex.normSq_apply]
  ring

/-! ## Claim C7: the all-ones 5×5 end-to-end scenario -/

/-- The 5×5 field whose every pixel is 1.0 with no missing pixels. -/
def field5 : Grid 5 5 := fun _ _ => some 1

/-- The plane fit on the all-ones field returns offset 1 and zero slopes,
exactly. -/
lemma planeparams_field5 : planeparams field5 = some ![1, 0, 0] := by
  have huniv : validSet field5 = Finset.univ := by
    rw [validSet, Finset.filter_true_of_mem]
    intro p _
    rfl
  have hv2 : ((2 : Fin 5)).val = 2 := rfl
  have hv3 : ((3 : Fin 5)).val = 3 := rfl
  have hv4 : ((4 : Fin 5)).val = 4 := rfl
  have hATA : ATA field5 = !![25, 50, 50; 50, 150, 100; 50, 100, 150] := by
    ext i j
    rw [ATA, huniv, Matrix.sum_apply]
    simp only [Fintype.sum_prod_type, Fin.sum_univ_five,
      Matrix.vecMulVec_apply, designRow, hv2, hv3, hv4]
    fin_cases i <;> fin_cases j <;> norm_num
  have hATd : ATd field5 = ![25, 50, 50] := by
    funext i
    rw [ATd, huniv, Finset.sum_apply]
    simp only [Fintype.sum_prod_type, Fin.sum_univ_five,
      Pi.smul_apply, pixval, designRow, field5, Option.getD_some, smul_eq_mul,
      hv2, hv3, hv4]
    fin_cases i <;> norm_num
  rw [planeparams, hATA, hATd]
  rw [if_neg (by norm_num [det3, Matrix.vecHead, Matrix.vecTail, Function.comp,
    Matrix.cons_val_zero, Matrix.cons_val_one, Matrix.head_cons])]
  congr 1
  funext i
  fin_cases i <;>
    simp [inv3, det3, adj3, Matrix.mulVec, Matrix.dotProduct, Fin.sum_univ_three,
      Matrix.smul_apply, smul_eq_mul, Matrix.vecHead, Matrix.vecTail,
      Function.comp] <;> norm_num

/-- C7: on the 5×5 all-ones field the plane fit returns offset 1 and slopes
0, the detrended field is exactly zero at every pixel — and therefore the
zero-filled field has zero nonzero pixels, so the estimator divides 0/0 and
returns NaN (`none`) at every lag, including zero lag, instead of the value 0
the claim requires. -/
theorem claim_C7_eval :
    planeparams field5 = some ![1, 0, 0] ∧
    flatcropifg field5 ![1, 0, 0] = (fun _ _ => some 0) ∧
    autocorr_grid (flatcropifg field5 ![1, 0, 0]) = none := by
  have hdetr : flatcropifg field5 ![1, 0, 0] = (fun _ _ => some 0) := by
    funext r c
    simp [flatcropifg, planeGrid, optSub, field5]
  refine ⟨planeparams_field5, hdetr, ?_⟩
  have hcnt : countNonzero (flatcropifgzeros ((fun _ _ => some 0) : Grid 5 5)) = 0 := by
    simp [countNonzero, flatcropifgzeros, zerofill]
  rw [hdetr, autocorr_grid, if_pos hcnt]

/-! ## Claim C8: aliasing of the zero-fill step -/

/-- A 1×1 field holding a single NaN pixel. -/
def fieldC8 : Grid 1 1 := fun _ _ => none

/-- C8 counterexample: the zero-fill step does not leave the detrended field
unchanged — on a field with a NaN pixel, the value of `flatcropifg` after the
step differs from its value before (the NaN marker has been overwritten by 0,
because the assignment created an alias, not a copy). -/
theorem claim_C8_counterexample : (zerofillAssign fieldC8).1 ≠ fieldC8 := by
  intro h
  have h0 := congrFun (congrFun h 0) 0
  simp [zerofillAssign, zerofill, fieldC8] at h0

/-- C8 amended: after the zero-fill lines run, the two names alias the same
zero-filled array, and every NaN marker of the detrended field has been
replaced by 0 (so the missing-value markers are NOT preserved). -/
theorem claim_C8_amended {m n : ℕ} (d : Grid m n) :
    (zerofillAssign d).1 = (zerofillAssign d).2 ∧
    ∀ r c, d r c = none → (zerofillAssign d).1 r c = some 0 := by
  refine ⟨rfl, ?_⟩
  intro r c hrc
  simp [zerofillAssign, zerofill, hrc]

/-- C8 witness: the amended statement applied to the concrete 1×1 NaN field. -/
theorem claim_C8_witness :
    fieldC8 0 0 = none ∧
    (zerofillAssign fieldC8).1 = (zerofillAssign fieldC8).2 ∧
    (zerofillAssign fieldC8).1 0 0 = some 0 :=
  ⟨rfl, (claim_C8_amended fieldC8).1, (claim_C8_amended fieldC8).2 0 0 rfl⟩

/-! ## Claim C1: the estimator pipeline and its normalization -/

/-- The spec-side estimator, following the wording of claim C1 step by step:
zero-fill, forward 2D DFT, elementwise squared-magnitude power spectrum,
inverse 2D DFT, real part, circular shift of zero lag to the grid center,
then normalization (here by the nonzero count, the amended normalizer). -/
noncomputable def autocovSpec {m n : ℕ} (f : Grid m n) : Fin m → Fin n → ℝ :=
  fun r c =>
    fftshift (fun a b =>
      (ifft2 (fun k l =>
        ((Complex.abs (fft2 (fun r' c' => ((flatcropifgzeros f r' c' : ℚ) : ℂ)) k l) ^ 2 : ℝ) : ℂ)) a b).re) r c
      / (countNonzero (flatcropifgzeros f) : ℝ)

/-- The shift `fftshift` moves index (0,0) to the central index (m/2, n/2). -/
lemma fftshift_center {m n : ℕ} (hm : 0 < m) (hn : 0 < n) (g : Fin m → Fin n → ℝ) :
    fftshift g ⟨m / 2, Nat.div_lt_self hm one_lt_two⟩ ⟨n / 2, Nat.div_lt_self hn one_lt_two⟩
      = g ⟨0, hm⟩ ⟨0, hn⟩ := by
  have h1 : m / 2 + (m - m / 2) = m := by omega
  have h2 : n / 2 + (n - n / 2) = n := by omega
  unfold fftshift
  congr 1 <;> rw [Fin.mk.injEq]
  · rw [h1, Nat.mod_self]
  · rw [h2, Nat.mod_self]

/-- C1 amended: when the zero-filled field has a nonzero pixel, the
estimator output is exactly the spec pipeline — DFT of the zero-filled
field, squared-magnitude power spectrum, inverse DFT, real part, circular
shift placing zero lag at the grid center — but normalized by the count of
NONZERO pixels of the zero-filled field (np.count_nonzero), not by the count
of originally-valid pixels; and the shifted grid holds the zero-lag value at
the central index. -/
theorem claim_C1_amended {m n : ℕ} (f : Grid m n) (hm : 0 < m) (hn : 0 < n)
    (h : countNonzero (flatcropifgzeros f) ≠ 0) :
    autocorr_grid f = some (autocovSpec f) ∧
    autocovSpec f ⟨m / 2, Nat.div_lt_self hm one_lt_two⟩ ⟨n / 2, Nat.div_lt_self hn one_lt_two⟩
      = (ifft2 (fun k l =>
          ((pspec (fft2 (fun r' c' => ((flatcropifgzeros f r' c' : ℚ) : ℂ))) k l : ℝ) : ℂ))
          ⟨0, hm⟩ ⟨0, hn⟩).re
        / (countNonzero (flatcropifgzeros f) : ℝ) := by
  have hXY : (fun k l =>
        ((pspec (fft2 (fun r' c' => ((flatcropifgzeros f r' c' : ℚ) : ℂ))) k l : ℝ) : ℂ))
      = (fun k l =>
        ((Complex.abs (fft2 (fun r' c' => ((flatcropifgzeros f r' c' : ℚ) : ℂ)) k l) ^ 2 : ℝ) : ℂ)) := by
    funext k l
    rw [pspec_eq_sq_abs]
  constructor
  · rw [autocorr_grid, if_neg h]
    unfold autocovSpec
    rw [hXY]
  · unfold autocovSpec
    rw [← hXY, fftshift_center hm hn]

/-- The 1×2 field (0, 1) with no missing pixels, on which the two candidate
normalizations disagree. -/
def field1x2 : Grid 1 2 := fun r c => ![![some 0, some 1]] r c

lemma countNonzero_field1x2 : countNonzero (flatcropifgzeros field1x2) = 1 := by
  rw [countNonzero]
  rw [show (Finset.univ.filter
      (fun p : Fin 1 × Fin 2 => flatcropifgzeros field1x2 p.1 p.2 ≠ 0)) =
      {((0 : Fin 1), (1 : Fin 2))} from ?_]
  · rfl
  · ext p
    simp only [Finset.mem_filter, Finset.mem_univ, true_and, Finset.mem_singleton]
    obtain ⟨p1, p2⟩ := p
    fin_cases p1 <;> fin_cases p2 <;>
      simp [flatcropifgzeros, zerofill, field1x2] <;> decide

lemma fft2_field1x2_zero :
    fft2 (fun r' c' => ((flatcropifgzeros field1x2 r' c' : ℚ) : ℂ)) 0 0 = 1 := by
  rw [fft2]
  rw [Fin.sum_univ_one]
  rw [Fin.sum_univ_two]
  norm_num [flatcropifgzeros, zerofill, field1x2, Complex.exp_zero]

lemma fft2_field1x2_one :
    fft2 (fun r' c' => ((flatcropifgzeros field1x2 r' c' : ℚ) : ℂ)) 0 1 = -1 := by
  rw [fft2]
  rw [Fin.sum_univ_one]
  rw [Fin.sum_univ_two]
  norm_num [flatcropifgzeros, zerofill, field1x2]
  rw [show (-(2 * (Real.pi : ℂ) * Complex.I * (1 / 2))) = -((Real.pi : ℂ) * Complex.I) from by
    ring]
  rw [Complex.exp_neg, Complex.exp_pi_mul_I]
  norm_num

lemma ifft2_field1x2_zero :
    (ifft2 (fun k l =>
      ((pspec (fft2 (fun r' c' => ((flatcropifgzeros field1x2 r' c' : ℚ) : ℂ))) k l : ℝ) : ℂ))
      (0 : Fin 1) (0 : Fin 2)).re = 1 := by
  rw [ifft2]
  rw [Fin.sum_univ_one]
  rw [Fin.sum_univ_two]
  rw [pspec, pspec, fft2_field1x2_zero, fft2_field1x2_one]
  norm_num [Complex.exp_zero]

/-- C1 counterexample: on the 1×2 field (0, 1) — both pixels valid, one of
them zero — the estimator (which divides by the nonzero count, 1) differs
from the claimed estimator that divides by the count of originally-valid
pixels (2). -/
theorem claim_C1_counterexample : autocorr_grid field1x2 ≠ autocorrClaimed field1x2 := by
  intro h
  have hval : validCount field1x2 = 2 := by decide
  rw [autocorr_grid, autocorrClaimed,
    if_neg (by rw [countNonzero_field1x2]; norm_num),
    if_neg (by rw [hval]; norm_num)] at h
  have hfn := Option.some_inj.mp h
  have h01 : (ifft2 (fun k l =>
        ((pspec (fft2 (fun r' c' => ((flatcropifgzeros field1x2 r' c' : ℚ) : ℂ))) k l : ℝ) : ℂ))
        (0 : Fin 1) (0 : Fin 2)).re / (countNonzero (flatcropifgzeros field1x2) : ℝ)
      = (ifft2 (fun k l =>
        ((pspec (fft2 (fun r' c' => ((flatcropifgzeros field1x2 r' c' : ℚ) : ℂ))) k l : ℝ) : ℂ))
        (0 : Fin 1) (0 : Fin 2)).re / (validCount field1x2 : ℝ) :=
    congrFun (congrFun hfn 0) 1
  rw [ifft2_field1x2_zero, countNonzero_field1x2, hval] at h01
  norm_num at h01

/-- C1 witness for the amended claim: the 1×2 field (0, 1) has nonzero
count 1, and the amended theorem applies to it. -/
theorem claim_C1_witness :
    countNonzero (flatcropifgzeros field1x2) ≠ 0 ∧
    autocorr_grid field1x2 = some (autocovSpec field1x2) :=
  ⟨by rw [countNonzero_field1x2]; norm_num,
   (claim_C1_amended field1x2 one_pos (by norm_num)
      (by rw [countNonzero_field1x2]; norm_num)).1⟩

/-! ## Claim C6: flatten and truncate -/

/-- The truncation cut point
`rdlen=nrows+np.ceil(len(rd)/2)` with `len(rd) = nrows*ncols`;
`⌈len/2⌉ = (len+1)/2` in natural division. -/
def rdlen (m n : ℕ) : ℕ := m + (m * n + 1) / 2

/-- C6: for a grid with at least one row and at least two columns (any grid
that survives the plane fit has non-collinear pixels, hence at least two
columns), slicing the flattened length-`m*n` vector to `rd[0:rdlen]` keeps
exactly `rdlen = rows + ceil(len/2)` entries, which is strictly more than the
symmetric half `ceil(len/2)`. -/
theorem claim_C6 (m n : ℕ) (hm : 1 ≤ m) (hn : 2 ≤ n) (xs : List ℝ)
    (hx : xs.length = m * n) :
    (xs.take (rdlen m n)).length = rdlen m n ∧
    rdlen m n = m + (m * n + 1) / 2 ∧
    (m * n + 1) / 2 < rdlen m n := by
  have hle : rdlen m n ≤ m * n := by
    have h2 : m * 2 ≤ m * n := Nat.mul_le_mul_left m hn
    rw [rdlen]
    omega
  refine ⟨?_, rfl, by rw [rdlen]; omega⟩
  rw [List.length_take, hx]
  omega

/-- C6 witness: a concrete 2×2 grid and length-4 vector. -/
theorem claim_C6_witness :
    (1 ≤ 2 ∧ 2 ≤ 2 ∧ ([0, 1, 2, 3] : List ℝ).length = 2 * 2) ∧
    ((([0, 1, 2, 3] : List ℝ).take (rdlen 2 2)).length = rdlen 2 2 ∧
     rdlen 2 2 = 2 + (2 * 2 + 1) / 2 ∧
     (2 * 2 + 1) / 2 < rdlen 2 2) :=
  ⟨⟨by norm_num, by norm_num, by norm_num⟩,
   claim_C6 2 2 (by norm_num) (by norm_num) [0, 1, 2, 3] (by norm_num)⟩

/-! ## Radial binning of the covariance profile -/

/-- Column index of the flattened (row-major ravel) position `k`. -/
def xIdx (n k : ℕ) : ℕ := k % n

/-- Row index of the flattened (row-major ravel) position `k`. -/
def yIdx (n k : ℕ) : ℕ := k / n

/-- The center column `xcent = np.floor(ncols/2)+1`. -/
def xcent (n : ℕ) : ℕ := n / 2 + 1

/-- The center row `ycent = np.floor(nrows/2)+1`. -/
def ycent (m : ℕ) : ℕ := m / 2 + 1

/-- The squared pixel distance `(xx-xcent)**2+(yy-ycent)**2` at flattened
position `k`: an exact integer. -/
def sqdist (m n k : ℕ) : ℤ :=
  ((xIdx n k : ℤ) - (xcent n : ℤ)) ^ 2 + ((yIdx n k : ℤ) - (ycent m : ℤ)) ^ 2

/-- The flattened distance grid
`radial_dist = np.sqrt((xx-xcent)**2+(yy-ycent)**2)*pixsize`. -/
noncomputable def rd (m n : ℕ) (p : ℝ) (k : ℕ) : ℝ :=
  Real.sqrt ((sqdist m n k : ℝ)) * p

/-- The bin width `w = pixsize*2`. -/
def binwidth (p : ℝ) : ℝ := p * 2

/-- The truncation distance: `maxdist = xcent*pixsize if xcent<ycent else
ycent*pixsize`, i.e. `min(xcent, ycent) * pixsize`. -/
noncomputable def maxdist (m n : ℕ) (p : ℝ) : ℝ :=
  ((min (xcent n) (ycent m) : ℕ) : ℝ) * p

/-- Number of flattened entries kept by the `rd[0:rdlen]` slice (python
slicing clips at the array length). -/
def kept (m n : ℕ) : ℕ := min (rdlen m n) (m * n)

/-- The bin number `rdbin = np.int32(np.ceil(rdtrunc/w))` of a sample. -/
noncomputable def rdbin (m n : ℕ) (p : ℝ) (k : ℕ) : ℤ :=
  Int.ceil (rd m n p k / binwidth p)

open Classical in
/-- The flattened sample positions averaged into bin `b` by
`cvdav[b,1] = np.mean(acgtrunc[np.where(rdbin==b+1)])`: positions in the kept
range whose distance is under `maxdist` and whose bin number is `b+1`. -/
noncomputable def binMembers (m n : ℕ) (p : ℝ) (b : ℕ) : Finset ℕ :=
  (Finset.range (kept m n)).filter
    (fun k => rd m n p k < maxdist m n p ∧ rdbin m n p k = (b : ℤ) + 1)

/-- The binned profile value `cvdav[b,1]`: the arithmetic mean of the
autocovariance samples in bin `b`; `none` embeds the NaN that `np.mean`
produces on an empty selection. -/
noncomputable def cvdav (m n : ℕ) (p : ℝ) (acg : ℕ → ℝ) (b : ℕ) : Option ℝ :=
  if (binMembers m n p b).Nonempty then
    some ((∑ k ∈ binMembers m n p b, acg k) / ((binMembers m n p b).card : ℝ))
  else none

lemma sqdist_nonneg (m n k : ℕ) : 0 ≤ sqdist m n k :=
  add_nonneg (sq_nonneg _) (sq_nonneg _)

lemma rd_lt_iff {m n k : ℕ} {p c : ℝ} (hp : 0 < p) (hc : 0 < c) :
    rd m n p k < c * p ↔ ((sqdist m n k : ℤ) : ℝ) < c ^ 2 := by
  rw [rd, mul_lt_mul_right hp]
  exact Real.sqrt_lt' hc

lemma rd_le_iff {m n k : ℕ} {p c : ℝ} (hp : 0 < p) (hc : 0 ≤ c) :
    rd m n p k ≤ c * p ↔ ((sqdist m n k : ℤ) : ℝ) ≤ c ^ 2 := by
  rw [rd, mul_le_mul_right hp]
  exact Real.sqrt_le_left hc

lemma rd_pos_iff {m n k : ℕ} {p : ℝ} (hp : 0 < p) :
    0 < rd m n p k ↔ 0 < sqdist m n k := by
  rw [rd]
  constructor
  · intro h
    by_contra hs
    push_neg at hs
    have h0 : sqdist m n k = 0 := le_antisymm hs (sqdist_nonneg m n k)
    rw [h0] at h
    simp at h
  · intro h
    have hs : (0 : ℝ) < ((sqdist m n k : ℤ) : ℝ) := by exact_mod_cast h
    exact mul_pos (Real.sqrt_pos.mpr hs) hp

lemma rd_eq_zero_iff {m n k : ℕ} {p : ℝ} (hp : 0 < p) :
    rd m n p k = 0 ↔ sqdist m n k = 0 := by
  rw [rd, mul_eq_zero, or_iff_left hp.ne']
  rw [Real.sqrt_eq_zero (by exact_mod_cast sqdist_nonneg m n k)]
  exact_mod_cast Iff.rfl

lemma binwidth_pos {p : ℝ} (hp : 0 < p) : 0 < binwidth p := by
  rw [binwidth]
  linarith

/-- Bin membership characterized by the distance interval: sample `k` is
averaged into bin `b` exactly when it is in the kept range, under `maxdist`,
and its distance lies in the half-open interval `(b·w, (b+1)·w]`. -/
lemma mem_binMembers_iff {m n : ℕ} {p : ℝ} (hp : 0 < p) (b k : ℕ) :
    k ∈ binMembers m n p b ↔
      (k < kept m n ∧ rd m n p k < maxdist m n p ∧
       (b : ℝ) * binwidth p < rd m n p k ∧
       rd m n p k ≤ ((b : ℝ) + 1) * binwidth p) := by
  have hw := binwidth_pos hp
  have hbin : rdbin m n p k = (b : ℤ) + 1 ↔
      ((b : ℝ) * binwidth p < rd m n p k ∧
       rd m n p k ≤ ((b : ℝ) + 1) * binwidth p) := by
    rw [rdbin, Int.ceil_eq_iff]
    push_cast
    rw [show ((b : ℝ) + 1 - 1) = (b : ℝ) from by ring]
    rw [lt_div_iff hw, div_le_iff hw]
  rw [binMembers, Finset.mem_filter, Finset.mem_range, hbin]

lemma rdbin_of_rd_eq_zero {m n k : ℕ} {p : ℝ} (h : rd m n p k = 0) :
    rdbin m n p k = 0 := by
  rw [rdbin, h, zero_div, Int.ceil_zero]

lemma not_mem_binMembers_of_rd_eq_zero {m n k : ℕ} {p : ℝ} (b : ℕ)
    (h : rd m n p k = 0) : k ∉ binMembers m n p b := by
  rw [binMembers, Finset.mem_filter]
  intro hmem
  have := hmem.2.2
  rw [rdbin_of_rd_eq_zero h] at this
  omega

/-- C3: the binning policy of the source — bin width is twice the pixel
size; any sample at distance `maxdist` or beyond is excluded from every bin;
a nonempty bin's value is the arithmetic mean of its samples and an empty
bin yields an explicit NaN (`none`); and membership of bin `b` is exactly
"kept by the truncation, inside `maxdist`, distance in `(b·w, (b+1)·w]`". -/
theorem claim_C3 (m n : ℕ) (p : ℝ) (hp : 0 < p) :
    binwidth p = 2 * p ∧
    (∀ k b : ℕ, maxdist m n p ≤ rd m n p k → k ∉ binMembers m n p b) ∧
    (∀ (acg : ℕ → ℝ) (b : ℕ),
      ((binMembers m n p b).Nonempty →
        cvdav m n p acg b =
          some ((∑ k ∈ binMembers m n p b, acg k) / ((binMembers m n p b).card : ℝ))) ∧
      (¬(binMembers m n p b).Nonempty → cvdav m n p acg b = none)) ∧
    (∀ b k : ℕ, k ∈ binMembers m n p b ↔
      (k < kept m n ∧ rd m n p k < maxdist m n p ∧
       (b : ℝ) * binwidth p < rd m n p k ∧
       rd m n p k ≤ ((b : ℝ) + 1) * binwidth p)) := by
  refine ⟨by rw [binwidth]; ring, ?_, ?_, fun b k => mem_binMembers_iff hp b k⟩
  · intro k b hge hmem
    rw [mem_binMembers_iff hp] at hmem
    linarith [hmem.2.1]
  · intro acg b
    constructor
    · intro hne
      rw [cvdav, if_pos hne]
    · intro hne
      rw [cvdav, if_neg hne]

/-- C3 witness: the binning facts instantiated on a concrete 8×4 grid with
pixel size 30. -/
theorem claim_C3_witness :
    (0 : ℝ) < 30 ∧
    (binwidth 30 = 2 * 30 ∧
     (∀ k b : ℕ, maxdist 8 4 30 ≤ rd 8 4 30 k → k ∉ binMembers 8 4 30 b) ∧
     (∀ (acg : ℕ → ℝ) (b : ℕ),
       ((binMembers 8 4 30 b).Nonempty →
         cvdav 8 4 30 acg b =
           some ((∑ k ∈ binMembers 8 4 30 b, acg k) / ((binMembers 8 4 30 b).card : ℝ))) ∧
       (¬(binMembers 8 4 30 b).Nonempty → cvdav 8 4 30 acg b = none)) ∧
     (∀ b k : ℕ, k ∈ binMembers 8 4 30 b ↔
       (k < kept 8 4 ∧ rd 8 4 30 k < maxdist 8 4 30 ∧
        (b : ℝ) * binwidth 30 < rd 8 4 30 k ∧
        rd 8 4 30 k ≤ ((b : ℝ) + 1) * binwidth 30))) :=
  ⟨by norm_num, claim_C3 8 4 30 (by norm_num)⟩

/-- C10 amended: a zero-distance sample gets bin number 0 and is collected
into no bin (the loop only gathers bin numbers `b+1 ≥ 1`), and bin 0 —
labelled distance 0 — gathers exactly the kept in-range samples at distances
`0 < d ≤ w` (inclusive at the bin width, not strictly below it). -/
theorem claim_C10_amended (m n : ℕ) (p : ℝ) (hp : 0 < p) :
    (∀ k : ℕ, rd m n p k = 0 →
      rdbin m n p k = 0 ∧ ∀ b : ℕ, k ∉ binMembers m n p b) ∧
    (∀ k : ℕ, k ∈ binMembers m n p 0 ↔
      (k < kept m n ∧ rd m n p k < maxdist m n p ∧
       0 < rd m n p k ∧ rd m n p k ≤ binwidth p)) := by
  constructor
  · intro k hk
    exact ⟨rdbin_of_rd_eq_zero hk, fun b => not_mem_binMembers_of_rd_eq_zero b hk⟩
  · intro k
    rw [mem_binMembers_iff hp]
    norm_num

/-- C10 witness: the amended statement instantiated on a concrete 7×3 grid
(a tall grid, whose zero-distance cell lies inside the truncated range) with
pixel size 30. -/
theorem claim_C10_witness :
    (0 : ℝ) < 30 ∧
    ((∀ k : ℕ, rd 7 3 30 k = 0 →
       rdbin 7 3 30 k = 0 ∧ ∀ b : ℕ, k ∉ binMembers 7 3 30 b) ∧
     (∀ k : ℕ, k ∈ binMembers 7 3 30 0 ↔
       (k < kept 7 3 ∧ rd 7 3 30 k < maxdist 7 3 30 ∧
        0 < rd 7 3 30 k ∧ rd 7 3 30 k ≤ binwidth 30))) :=
  ⟨by norm_num, claim_C10_amended 7 3 30 (by norm_num)⟩

open Classical in
/-- The sample set that the literal reading of claim C10 assigns to the
first profile entry: kept, in-range samples at distances strictly between 0
and the bin width. -/
noncomputable def strictBin0Set (m n : ℕ) (p : ℝ) : Finset ℕ :=
  (Finset.range (kept m n)).filter
    (fun k => rd m n p k < maxdist m n p ∧ 0 < rd m n p k ∧ rd m n p k < binwidth p)

/-- The mean claim C10 asserts for `cvdav[0]`: the arithmetic mean over
samples at distances strictly between 0 and the bin width. -/
noncomputable def strictBin0Mean (m n : ℕ) (p : ℝ) (acg : ℕ → ℝ) : ℝ :=
  (∑ k ∈ strictBin0Set m n p, acg k) / ((strictBin0Set m n p).card : ℝ)

/-- A concrete flattened autocovariance vector: 100 at position 15 (the
sample at distance exactly one bin width from the center of the 8×4 grid),
0 elsewhere. -/
noncomputable def acgC10 : ℕ → ℝ := fun k => if k = 15 then 100 else 0

lemma binMembers830 : binMembers 8 4 (30 : ℝ) 0 = {15, 18, 19, 21, 22} := by
  ext k
  rw [mem_binMembers_iff (show (0 : ℝ) < 30 by norm_num) 0 k]
  rw [show maxdist 8 4 (30 : ℝ) = (3 : ℝ) * 30 from by
    rw [maxdist]; norm_num [xcent, ycent]]
  rw [rd_lt_iff (by norm_num) (show (0 : ℝ) < 3 by norm_num)]
  rw [show ((0 : ℕ) : ℝ) * binwidth 30 = 0 from by norm_num]
  rw [rd_pos_iff (show (0 : ℝ) < 30 by norm_num)]
  rw [show (((0 : ℕ) : ℝ) + 1) * binwidth 30 = (2 : ℝ) * 30 from by
    rw [binwidth]; norm_num]
  rw [rd_le_iff (by norm_num) (show (0 : ℝ) ≤ 2 by norm_num)]
  rw [show kept 8 4 = 24 from by norm_num [kept, rdlen]]
  norm_cast
  by_cases hk : k < 24
  · interval_cases k <;> decide
  · exact iff_of_false (fun h => hk h.1)
      (by simp only [Finset.mem_insert, Finset.mem_singleton]; omega)

lemma strictBin0Set830 : strictBin0Set 8 4 (30 : ℝ) = {18, 19, 22} := by
  ext k
  rw [strictBin0Set, Finset.mem_filter, Finset.mem_range]
  rw [show maxdist 8 4 (30 : ℝ) = (3 : ℝ) * 30 from by
    rw [maxdist]; norm_num [xcent, ycent]]
  rw [rd_lt_iff (by norm_num) (show (0 : ℝ) < 3 by norm_num)]
  rw [rd_pos_iff (show (0 : ℝ) < 30 by norm_num)]
  rw [show binwidth (30 : ℝ) = (2 : ℝ) * 30 from by rw [binwidth]; ring]
  rw [rd_lt_iff (by norm_num) (show (0 : ℝ) < 2 by norm_num)]
  rw [show kept 8 4 = 24 from by norm_num [kept, rdlen]]
  norm_cast
  by_cases hk : k < 24
  · interval_cases k <;> decide
  · exact iff_of_false (fun h => hk h.1)
      (by simp only [Finset.mem_insert, Finset.mem_singleton]; omega)

lemma cvdav830 : cvdav 8 4 (30 : ℝ) acgC10 0 = some 20 := by
  have hne : (binMembers 8 4 (30 : ℝ) 0).Nonempty := by
    rw [binMembers830]
    exact ⟨15, by decide⟩
  rw [cvdav, if_pos hne, binMembers830]
  have hsum : ∑ k ∈ ({15, 18, 19, 21, 22} : Finset ℕ), acgC10 k
      = acgC10 15 + (acgC10 18 + (acgC10 19 + (acgC10 21 + acgC10 22))) := by
    rw [Finset.sum_insert (by decide), Finset.sum_insert (by decide),
      Finset.sum_insert (by decide), Finset.sum_insert (by decide),
      Finset.sum_singleton]
  have hcard : ({15, 18, 19, 21, 22} : Finset ℕ).card = 5 := by decide
  rw [hsum, hcard]
  norm_num [acgC10]

lemma strictBin0Mean830 : strictBin0Mean 8 4 (30 : ℝ) acgC10 = 0 := by
  rw [strictBin0Mean, strictBin0Set830]
  have hsum : ∑ k ∈ ({18, 19, 22} : Finset ℕ), acgC10 k
      = acgC10 18 + (acgC10 19 + acgC10 22) := by
    rw [Finset.sum_insert (by decide), Finset.sum_insert (by decide),
      Finset.sum_singleton]
  rw [hsum]
  norm_num [acgC10]

/-- C10 counterexample: on the 8×4 grid with pixel size 30, position 15 sits
at distance exactly one bin width (60 m) from the center and IS averaged
into bin 0, so `cvdav[0]` (= 20 here) differs from the mean over samples at
distances strictly between 0 and the bin width (= 0 here). -/
theorem claim_C10_counterexample :
    cvdav 8 4 (30 : ℝ) acgC10 0 ≠ some (strictBin0Mean 8 4 (30 : ℝ) acgC10) := by
  rw [cvdav830, strictBin0Mean830]
  intro h
  have h20 := Option.some_inj.mp h
  norm_num at h20

/-! ## Claim C4: the covariance model fit objectives -/

/-- The Euclidean 2-norm `np.linalg.norm(eff, 2)` of a vector. -/
noncomputable def norm2 {s : ℕ} (v : Fin s → ℝ) : ℝ :=
  Real.sqrt (∑ i, v i ^ 2)

/-- The penalty function of the exponential fit (source `pendiffexp`):
`a = cvdav[0,1]` is the first bin value (not a parameter), `b = params[0]`
is the single free parameter, and the residual vector is
`cvdav[:,1] - a*np.exp(-b*cvdav[:,0])`.  A profile row is a
(distance, value) pair. -/
noncomputable def pendiffexp {s : ℕ} (params : ℝ) (cv : Fin (s + 1) → ℝ × ℝ) : ℝ :=
  norm2 (fun i => (cv i).2 - (cv 0).2 * Real.exp (-params * (cv i).1))

/-- The penalty function of the exponential-cosine fit (source
`pendiffexpcos`), with two free parameters and residuals
`cvdav[:,1] - a*np.exp(-b*cvdav[:,0])*np.cos(c*cvdav[:,0])`. -/
noncomputable def pendiffexpcos {s : ℕ} (params : ℝ × ℝ)
    (cv : Fin (s + 1) → ℝ × ℝ) : ℝ :=
  norm2 (fun i =>
    (cv i).2 - (cv 0).2 * Real.exp (-params.1 * (cv i).1) * Real.cos (params.2 * (cv i).1))

/-- C4: both fit objectives are the Euclidean norm of the residuals against a
model whose amplitude is pinned to the first bin value `cvdav[0,1]` — it is
never a free parameter — so for every value of the free parameter(s) the
model evaluated at distance 0 equals the first bin value exactly. -/
theorem claim_C4 (s : ℕ) (cv : Fin (s + 1) → ℝ × ℝ) (α β : ℝ) :
    pendiffexp α cv
      = Real.sqrt (∑ i, ((cv i).2 - (cv 0).2 * Real.exp (-α * (cv i).1)) ^ 2) ∧
    pendiffexpcos (α, β) cv
      = Real.sqrt (∑ i,
          ((cv i).2 - (cv 0).2 * Real.exp (-α * (cv i).1) * Real.cos (β * (cv i).1)) ^ 2) ∧
    (cv 0).2 * Real.exp (-α * 0) = (cv 0).2 ∧
    (cv 0).2 * Real.exp (-α * 0) * Real.cos (β * 0) = (cv 0).2 := by
  refine ⟨rfl, rfl, ?_, ?_⟩ <;>
    simp [mul_zero, Real.exp_zero, Real.cos_zero]

/-! ## Claim C5: the covariance matrix builder -/

/-- The pairwise distance matrix
`rgrid = np.sqrt((xx1-xx2)**2+(yy1-yy2)**2)` built from the meshgrids
`xx1[i,j] = x[j]`, `xx2[i,j] = x[i]`. -/
noncomputable def rgrid {N : ℕ} (x y : Fin N → ℝ) : Matrix (Fin N) (Fin N) ℝ :=
  fun i j => Real.sqrt ((x j - x i) ^ 2 + (y j - y i) ^ 2)

/-- The covariance matrix `E = maxvar*np.exp(-alpha*rgrid)*np.cos(beta*rgrid)`. -/
noncomputable def Ecov {N : ℕ} (x y : Fin N → ℝ) (maxvar alpha beta : ℝ) :
    Matrix (Fin N) (Fin N) ℝ :=
  fun i j => maxvar * Real.exp (-alpha * rgrid x y i j) * Real.cos (beta * rgrid x y i j)

/-- The four Moore–Penrose equations: the defining contract of the
pseudoinverse `np.linalg.pinv` computes. -/
def IsMoorePenrose {N : ℕ} (E P : Matrix (Fin N) (Fin N) ℝ) : Prop :=
  E * P * E = E ∧ P * E * P = P ∧
  Matrix.transpose (E * P) = E * P ∧ Matrix.transpose (P * E) = P * E

/-- C5: the covariance matrix is symmetric, the underlying distance matrix
has zero diagonal, and any Moore–Penrose pseudoinverse `P` of `E` satisfies
`E · P · E = E`. -/
theorem claim_C5 {N : ℕ} (x y : Fin N → ℝ) (maxvar alpha beta : ℝ) :
    Matrix.transpose (Ecov x y maxvar alpha beta) = Ecov x y maxvar alpha beta ∧
    (∀ i, rgrid x y i i = 0) ∧
    (∀ P, IsMoorePenrose (Ecov x y maxvar alpha beta) P →
      Ecov x y maxvar alpha beta * P * Ecov x y maxvar alpha beta
        = Ecov x y maxvar alpha beta) := by
  refine ⟨?_, ?_, fun P hP => hP.1⟩
  · ext i j
    rw [Matrix.transpose_apply]
    have hsym : rgrid x y j i = rgrid x y i j := by
      simp only [rgrid]
      congr 1
      ring
    simp only [Ecov, hsym]
  · intro i
    simp [rgrid]

/-- The 1×1 covariance matrix of a single point at the origin with
`maxvar = 1`, `alpha = beta = 0`. -/
noncomputable def Ewit : Matrix (Fin 1) (Fin 1) ℝ :=
  Ecov (fun _ => 0) (fun _ => 0) 1 0 0

lemma Ewit_eq_one : Ewit = 1 := by
  ext i j
  fin_cases i
  fin_cases j
  simp [Ewit, Ecov, rgrid, Matrix.one_apply]

lemma isMoorePenrose_Ewit : IsMoorePenrose Ewit 1 := by
  rw [IsMoorePenrose, Ewit_eq_one]
  refine ⟨by simp, by simp, by simp, by simp⟩

/-- C5 witness: the identity matrix is a Moore–Penrose pseudoinverse of the
concrete 1×1 covariance matrix, and the theorem yields `E · P · E = E`. -/
theorem claim_C5_witness :
    IsMoorePenrose Ewit 1 ∧ Ewit * 1 * Ewit = Ewit :=
  ⟨isMoorePenrose_Ewit,
   (claim_C5 (fun _ => 0) (fun _ => 0) 1 0 0).2.2 1 isMoorePenrose_Ewit⟩

end GEO244
